import Mathlib

/-!
Verification of the paltoquet word tokenizer (src/tokenizers/words.rs) and
hashtag segmenter (src/hashtags.rs).

Strings are modelled as `List Char`; positions are character indices except
where the Rust code manipulates raw byte offsets (the hashtag segmenter, the
30-byte junk bound), where `Char.utf8Size` recovers the byte geometry.

The Unicode character classes used by the Rust code (char::is_whitespace,
char::is_alphabetic, the regex classes \p{Alpha}, \p{Lu}, \p{Emoji}, ...)
are backed by the full Unicode tables in the source.  Here they are modelled
exactly on ASCII plus the non-ASCII characters exercised by this development
(accented Latin letters, the typographic apostrophe, the star emoji); the
universal theorems below do not depend on the contents of these classes.
-/

/-- The ASCII apostrophe character (U+0027). -/
def apos : Char := Char.ofNat 39

/-- Uppercase/lowercase pairs: ASCII A-Z plus the accented Latin letters
appearing in the tokenizer's constants.  Models the Unicode case tables
restricted to the characters this development uses. -/
def lowerPairs : List (Char × Char) :=
  [('A','a'),('B','b'),('C','c'),('D','d'),('E','e'),('F','f'),('G','g'),
   ('H','h'),('I','i'),('J','j'),('K','k'),('L','l'),('M','m'),('N','n'),
   ('O','o'),('P','p'),('Q','q'),('R','r'),('S','s'),('T','t'),('U','u'),
   ('V','v'),('W','w'),('X','x'),('Y','y'),('Z','z'),
   ('À','à'),('Á','á'),('Â','â'),('Ä','ä'),('Ą','ą'),('Å','å'),
   ('Ô','ô'),('Ó','ó'),('Ø','ø'),('É','é'),('È','è'),('Ë','ë'),('Ê','ê'),
   ('Ę','ę'),('Í','í'),('Ï','ï'),('Î','î'),('Ú','ú'),('Ù','ù'),('Û','û'),
   ('Ü','ü'),('Ÿ','ÿ'),('Æ','æ'),('Œ','œ'),('Ç','ç')]

/-- Case-insensitive comparison helper: lowercases a character, modelling the
regex (?i) flag and str::to_lowercase on the characters used here. -/
def toLowerChar (c : Char) : Char :=
  match lowerPairs.find? (fun p => p.1 == c) with
  | some p => p.2
  | none => c

/-- Models Rust char::is_whitespace, i.e. the Unicode White_Space property
(this list is the complete White_Space table). -/
def isWs (c : Char) : Bool :=
  let n := c.toNat
  n == 0x20 || (0x09 ≤ n && n ≤ 0x0d) || n == 0x85 || n == 0xa0 ||
  n == 0x1680 || (0x2000 ≤ n && n ≤ 0x200a) || n == 0x2028 || n == 0x2029 ||
  n == 0x202f || n == 0x205f || n == 0x3000

/-- Models char::is_uppercase restricted to the characters used here. -/
def isUpperC (c : Char) : Bool :=
  lowerPairs.any (fun p => p.1 == c)

/-- Models char::is_lowercase restricted to the characters used here. -/
def isLowerC (c : Char) : Bool :=
  lowerPairs.any (fun p => p.2 == c)

/-- Models char::is_alphabetic and the regex class \p{Alpha} restricted to
the characters used here. -/
def isAlphaC (c : Char) : Bool :=
  isUpperC c || isLowerC c

/-- Models the regex class \p{Digit} (Unicode Nd) restricted to ASCII. -/
def isDigitC (c : Char) : Bool :=
  '0' ≤ c && c ≤ '9'

/-- Models char::is_numeric restricted to the characters used here. -/
def isNumericC (c : Char) : Bool :=
  isDigitC c

/-- Models char::is_alphanumeric restricted to the characters used here. -/
def isAlnumC (c : Char) : Bool :=
  isAlphaC c || isNumericC c

/-- Models the regex word-character class \w (used by the \b assertion)
restricted to the characters used here. -/
def isWordC (c : Char) : Bool :=
  isAlnumC c || c == '_'

/-- The tokenizer's VOWELS constant (words.rs line 32). -/
def VOWELS : List Char :=
  ['a','á','à','â','ä','ą','å','o','ô','ó','ø','e','é','è','ë','ê','ę',
   'i','í','ï','î','ı','u','ú','ù','û','ü','y','ÿ','æ','œ']

/-- The tokenizer's CONSONANTS_APOSTROPHE constant (words.rs line 33). -/
def CONSONANTS_APOSTROPHE : List Char := ['c','d','j','l','m','n','s','t']

/-- The tokenizer's LETTERS_START_NAME constant (words.rs line 34). -/
def LETTERS_START_NAME : List Char := ['d','l','m','n','o']

/-- Membership in the VOWELS class under the (?i) flag: models the
VOWELS_REGEX test on a single character. -/
def isVowelCI (c : Char) : Bool :=
  VOWELS.contains c || VOWELS.contains (toLowerChar c)

/-- Models starts_with_vowel (words.rs line 139): does the string begin with
a character of the case-insensitive VOWELS class. -/
def starts_with_vowel (s : List Char) : Bool :=
  match s with
  | [] => false
  | c :: _ => isVowelCI c

/-- Models is_ascii_junk_or_whitespace (words.rs line 134). -/
def is_ascii_junk_or_whitespace (c : Char) : Bool :=
  c.toNat ≤ 0x1f || isWs c

/-- UTF-8 byte length of a character list; models str::len. -/
def utf8Len (s : List Char) : Nat :=
  (s.map Char.utf8Size).sum

/-- The scan loop of is_junk (words.rs lines 161-192), carried over the
remaining input and the mutable state of the Rust loop: the last character
and its repeat counter, the total vowel count, the consecutive vowel and
consonant counts, and the punctuation flag.  Note that the Rust code does
not reset the repeat counter when the character changes. -/
def isJunkLoop : List Char → Option (Char × Nat) → Nat → Nat → Nat → Bool → Bool
  | [], _, totalV, _, _, hasPunct => totalV == 0 && !hasPunct
  | c :: rest, lastOpt, totalV, consV, consC, hasPunct =>
    let step : Option (Char × Nat) ⊕ Unit :=
      match lastOpt with
      | some (lastC, count) =>
        if c ≠ lastC then Sum.inl (some (c, count))
        else if count = 3 then Sum.inr ()
        else Sum.inl (some (c, count + 1))
      | none => Sum.inl (some (c, 1))
    match step with
    | Sum.inr _ => true
    | Sum.inl lastOpt' =>
      let next3 : Nat × Nat × Nat × Bool :=
        if starts_with_vowel (c :: rest) then
          (totalV + 1, consV + 1, 0, hasPunct)
        else if isAlphaC c then
          (totalV, 0, consC + 1, hasPunct)
        else
          (totalV, 0, 0, true)
      match next3 with
      | (totalV', consV', consC', hasPunct') =>
        if consV' > 6 || consC' > 7 then true
        else isJunkLoop rest lastOpt' totalV' consV' consC' hasPunct'

/-- Models is_junk (words.rs lines 149-196). -/
def is_junk (s : List Char) : Bool :=
  if utf8Len s > 30 then true
  else isJunkLoop s none 0 0 0 false

/-- Longest run of a single repeated character in the list. -/
def maxRepeatRun : List Char → Nat
  | [] => 0
  | c :: rest => go c 1 1 rest
where
  go (cur : Char) (run best : Nat) : List Char → Nat
    | [] => max run best
    | c :: rest =>
      if c = cur then go cur (run + 1) (max (run + 1) best) rest
      else go c 1 (max run best) rest

/-- Longest run of consecutive characters satisfying p. -/
def maxRunOf (p : Char → Bool) (l : List Char) : Nat :=
  go 0 0 l
where
  go (run best : Nat) : List Char → Nat
    | [] => max run best
    | c :: rest =>
      if p c then go (run + 1) (max (run + 1) best) rest
      else go 0 best rest

/-- The junk predicate exactly as the specification words it (spec section
4.7 and claim C2): over 30 bytes, or a character repeated more than 3 times
consecutively, or more than 6 consecutive vowels, or more than 7 consecutive
consonants, or no vowel and no punctuation-class character at all. -/
def junkSpec (s : List Char) : Bool :=
  utf8Len s > 30 ||
  maxRepeatRun s > 3 ||
  maxRunOf isVowelCI s > 6 ||
  maxRunOf (fun c => !isVowelCI c && isAlphaC c) s > 7 ||
  (s.all (fun c => !isVowelCI c) && s.all (fun c => isVowelCI c || isAlphaC c))

/-- Convert a string literal to the character-list representation. -/
def lc (s : String) : List Char := s.data

/-- Prefix length of characters satisfying p. -/
def countWhile (p : Char → Bool) (l : List Char) : Nat :=
  (l.takeWhile p).length

/-- Whether the character at (character) position p is a word character;
out-of-range positions count as non-word, as at the edges of a haystack. -/
def wordAt (s : List Char) (p : Nat) : Bool :=
  match (s.drop p).head? with
  | some c => isWordC c
  | none => false

/-- Models the regex \b assertion at position p of s. -/
def boundaryAt (s : List Char) (p : Nat) : Bool :=
  if p = 0 then wordAt s 0
  else wordAt s (p - 1) != wordAt s p

/-- Is the character one of the two apostrophes the patterns accept. -/
def isApostropheC (c : Char) : Bool :=
  c == apos || c == '’'

/-- Hashtag pattern of SIMPLE_PATTERNS (words.rs line 40):
(?i)^[#$]\p{Alpha}[\p{Alpha}\p{Digit}]+\b.  Returns the match end.
Shrinking the greedy run cannot restore a failed \b (the run characters are
word characters), so a single maximal-munch attempt is exact. -/
def hashtagEnd (s : List Char) : Option Nat :=
  match s with
  | c0 :: c1 :: rest =>
    if (c0 == '#' || c0 == '$') && isAlphaC c1 then
      let k := countWhile isAlnumC rest
      if 1 ≤ k && boundaryAt s (2 + k) then some (2 + k) else none
    else none
  | _ => none

/-- Mention pattern (words.rs line 45):
(?i)^@\p{Alpha}[\p{Alpha}\p{Digit}_]+\b. -/
def mentionEnd (s : List Char) : Option Nat :=
  match s with
  | c0 :: c1 :: rest =>
    if c0 == '@' && isAlphaC c1 then
      let k := countWhile (fun c => isAlnumC c || c == '_') rest
      if 1 ≤ k && boundaryAt s (2 + k) then some (2 + k) else none
    else none
  | _ => none

/-- Length consumed by the optional leading minus of the number pattern. -/
def negLen (s : List Char) : Nat :=
  if s.head? == some '-' then 1 else 0

/-- Characters consumed by the optional fraction group (?:[.,]\p{Digit}+)?
when it matches after the integer digits of s1. -/
def numberFracLen (s1 : List Char) (d1 : Nat) : Nat :=
  match s1.drop d1 with
  | c :: t =>
    if (c == '.' || c == ',') && 1 ≤ countWhile isDigitC t then
      1 + countWhile isDigitC t
    else 0
  | [] => 0

/-- Number pattern (words.rs line 50):
^-?\p{Digit}+(?:[.,]\p{Digit}+)?\b.  The optional fraction group is tried
greedily; if \b fails after it, the group is dropped (the regex backtracks
over the ? operator); \b between two digits can never hold, so digit runs
are maximal-munch. -/
def numberEnd (s : List Char) : Option Nat :=
  let d1 := countWhile isDigitC (s.drop (negLen s))
  if d1 = 0 then none
  else
    let p1 := negLen s + d1
    let fracLen := numberFracLen (s.drop (negLen s)) d1
    if 1 ≤ fracLen && boundaryAt s (p1 + fracLen) then some (p1 + fracLen)
    else if boundaryAt s p1 then some p1 else none

/-- The regional-indicator range U+1F1E6..U+1F1FF (\p{Regional_Indicator}). -/
def isRegionalIndicatorC (c : Char) : Bool :=
  0x1f1e6 ≤ c.toNat && c.toNat ≤ 0x1f1ff

/-- The emoji-modifier range U+1F3FB..U+1F3FF (\p{Emoji_Modifier}). -/
def isEmojiModifierC (c : Char) : Bool :=
  0x1f3fb ≤ c.toNat && c.toNat ≤ 0x1f3ff

/-- Models \p{Emoji_Modifier_Base} restricted to the characters used here. -/
def isEmojiModifierBaseC (c : Char) : Bool :=
  c.toNat == 0x1f44d || c.toNat == 0x1f64f || c.toNat == 0x1f468 ||
  c.toNat == 0x1f467

/-- Models \p{Emoji_Presentation} restricted to the characters used here
(digits, # and * have the Emoji property but not Emoji_Presentation). -/
def isEmojiPresentationC (c : Char) : Bool :=
  c.toNat == 0x2b50 || c.toNat == 0x1f64f || c.toNat == 0x1f431 ||
  c.toNat == 0x1f46a || c.toNat == 0x1f44d || c.toNat == 0x26bd ||
  c.toNat == 0x1f929 || c.toNat == 0x1f468 || c.toNat == 0x1f467

/-- Models \p{Emoji} restricted to the characters used here: the emoji
pictographs above plus the digits, # and *, which carry the Emoji property
(the overlap the spec warns about in section 9). -/
def isEmojiC (c : Char) : Bool :=
  isEmojiPresentationC c || isEmojiModifierBaseC c || isRegionalIndicatorC c ||
  isEmojiModifierC c || isDigitC c || c == '#' || c == '*'

/-- Characters consumed by the greedy (?:ZWJ \p{Emoji})* tail of the emoji
ZWJ-sequence alternative. -/
def zwjTail : List Char → Nat
  | z :: c :: rest =>
    if z.toNat == 0x200d && isEmojiC c then 2 + zwjTail rest else 0
  | _ => 0

/-- Emoji pattern (words.rs lines 55-68), an alternation tried left to
right: regional-indicator run, ZWJ sequence, modifier sequence, single
emoji-presentation codepoint; the last two with optional trailing U+FE0F. -/
def emojiEnd (s : List Char) : Option Nat :=
  let k := countWhile isRegionalIndicatorC s
  if 1 ≤ k then some k
  else
    match s with
    | [] => none
    | c :: rest =>
      if isEmojiC c && 1 ≤ zwjTail rest then
        let fe : Nat := match rest.drop (zwjTail rest) with
          | f :: _ => if f.toNat == 0xfe0f then 1 else 0
          | [] => 0
        some (1 + zwjTail rest + fe)
      else if isEmojiModifierBaseC c then
        let tail : Nat := match rest with
          | f :: m :: _ =>
            if f.toNat == 0xfe0f && isEmojiModifierC m then 2
            else if isEmojiModifierC f then 1 else 0
          | [f] => if isEmojiModifierC f then 1 else 0
          | [] => 0
        some (1 + tail)
      else if isEmojiPresentationC c then
        let fe : Nat := match rest with
          | f :: _ => if f.toNat == 0xfe0f then 1 else 0
          | [] => 0
        some (1 + fe)
      else none

/-- The abbreviation alternation (words.rs line 73) expanded into the list
of literal alternatives in the order the regex tries them:
app?t | etc | [djs]r | prof | mlle | mgr | min | mrs | m[rs] | m | no | pp? | st | vs. -/
def ABBREVS : List (List Char) :=
  [lc "appt", lc "apt", lc "etc", lc "dr", lc "jr", lc "sr", lc "prof",
   lc "mlle", lc "mgr", lc "min", lc "mrs", lc "mr", lc "ms", lc "m",
   lc "no", lc "pp", lc "p", lc "st", lc "vs"]

/-- Try the abbreviation alternatives in order, each case-insensitively and
followed by a literal period. -/
def abbrevTry (s : List Char) : List (List Char) → Option Nat
  | [] => none
  | a :: more =>
    let n := a.length
    if (s.take n).map toLowerChar == a && (s.drop n).head? == some '.' then
      some (n + 1)
    else abbrevTry s more

/-- Abbreviation pattern (words.rs line 73). -/
def abbrevEnd (s : List Char) : Option Nat :=
  abbrevTry s ABBREVS

/-- Url pattern (words.rs line 77): (?i)^https?://[^\s,;]+.  The optional s
is greedy, so the https:// form is tried first. -/
def isUrlTailC (c : Char) : Bool :=
  !(isWs c || c == ',' || c == ';')

/-- One scheme alternative of the url pattern: the scheme literal
case-insensitively, then at least one tail character. -/
def urlScheme (scheme s : List Char) : Option Nat :=
  if (s.take scheme.length).map toLowerChar == scheme &&
     1 ≤ countWhile isUrlTailC (s.drop scheme.length) then
    some (scheme.length + countWhile isUrlTailC (s.drop scheme.length))
  else none

def urlEnd (s : List Char) : Option Nat :=
  match urlScheme (lc "https://") s with
  | some e => some e
  | none => urlScheme (lc "http://") s

/-- Is c an ASCII letter (the [a-z] class under the (?i) flag). -/
def isAsciiLetterCI (c : Char) : Bool :=
  'a' ≤ toLowerChar c && toLowerChar c ≤ 'z'

/-- The email local-part character class (words.rs line 80) under (?i):
letters, digits and the listed symbols. -/
def isLocalC (c : Char) : Bool :=
  isAsciiLetterCI c || isDigitC c ||
  c == '!' || c == '#' || c == '$' || c == '%' || c == '&' || c == '*' ||
  c == '+' || c == '-' || c == '/' || c == '=' || c == '?' || c == '^' ||
  c == '_' || c.toNat == 0x60 || c.toNat == 0x7b || c == '|' ||
  c.toNat == 0x7d || c == '~'

/-- Characters consumed by the greedy (?:\.[a-z]{2,8})* tail of the email
domain.  An iteration consumes a dot and at most 8 letters; if more letters
follow, the next iteration cannot start (a letter is not a dot) and the star
stops, exactly as the regex does. -/
def emailDomainStar : Nat → List Char → Nat
  | 0, _ => 0
  | fuel + 1, s =>
    match s with
    | c :: rest =>
      if c == '.' then
        let r := countWhile isAsciiLetterCI rest
        if 2 ≤ r then
          let t := min r 8
          1 + t + emailDomainStar fuel (rest.drop t)
        else 0
      else 0
    | [] => 0

/-- Email pattern (words.rs line 80):
^(?i)[local]{1,64}@[a-z]{2,8}\.[a-z]{2,8}(?:\.[a-z]{2,8})*.  The local part
and the first domain label allow no useful backtracking (their characters
cannot match the following @ or dot), so bounded maximal munch is exact. -/
def emailEnd (s : List Char) : Option Nat :=
  let k := countWhile isLocalC s
  if 1 ≤ k && k ≤ 64 && (s.drop k).head? == some '@' then
    let d := s.drop (k + 1)
    let r1 := countWhile isAsciiLetterCI d
    if 2 ≤ r1 && r1 ≤ 8 && (d.drop r1).head? == some '.' then
      let d2 := d.drop (r1 + 1)
      let r2 := countWhile isAsciiLetterCI d2
      if 2 ≤ r2 then
        let t := min r2 8
        some (k + 1 + r1 + 1 + t + emailDomainStar d2.length (d2.drop t))
      else none
    else none
  else none

/-- Characters consumed by the greedy (?:\.\p{Lu})+ tail of the acronym
pattern. -/
def acronymPairs : List Char → Nat
  | d :: c :: rest =>
    if d == '.' && isUpperC c then 2 + acronymPairs rest else 0
  | _ => 0

/-- Acronym pattern (words.rs line 89): ^\p{Lu}(?:\.\p{Lu})+\.? -/
def acronymEnd (s : List Char) : Option Nat :=
  match s with
  | c :: rest =>
    if isUpperC c then
      let t := acronymPairs rest
      if 1 ≤ t then
        let dot : Nat := match rest.drop t with
          | d :: _ => if d == '.' then 1 else 0
          | [] => 0
        some (1 + t + dot)
      else none
    else none
  | [] => none

/-- Basic-token pattern (words.rs line 91): ^\p{Alpha}+(?:\s|$).  The match
end includes the single trailing whitespace character when present. -/
def basicEnd (s : List Char) : Option Nat :=
  let k := countWhile isAlphaC s
  if 1 ≤ k then
    match (s.drop k).head? with
    | none => some k
    | some c => if isWs c then some (k + 1) else none
  else none

/-- The token kinds (words.rs lines 198-208). -/
inductive WordTokenKind where
  | Word
  | Hashtag
  | Mention
  | Emoji
  | Punctuation
  | Number
  | Url
  | Email
deriving DecidableEq, Repr

/-- A token: a kind and a text span (words.rs lines 243-247). -/
structure WordToken where
  kind : WordTokenKind
  text : List Char
deriving DecidableEq, Repr

/-- The SIMPLE_PATTERNS table (words.rs lines 37-92) searched with
leftmost-first multi-pattern semantics: all nine patterns are anchored, so
the first pattern in table order that matches at the start wins. -/
def simplePatternMatch (s : List Char) : Option (Nat × WordTokenKind) :=
  match hashtagEnd s with
  | some e => some (e, WordTokenKind.Hashtag)
  | none =>
  match mentionEnd s with
  | some e => some (e, WordTokenKind.Mention)
  | none =>
  match numberEnd s with
  | some e => some (e, WordTokenKind.Number)
  | none =>
  match emojiEnd s with
  | some e => some (e, WordTokenKind.Emoji)
  | none =>
  match abbrevEnd s with
  | some e => some (e, WordTokenKind.Word)
  | none =>
  match urlEnd s with
  | some e => some (e, WordTokenKind.Url)
  | none =>
  match emailEnd s with
  | some e => some (e, WordTokenKind.Email)
  | none =>
  match acronymEnd s with
  | some e => some (e, WordTokenKind.Word)
  | none =>
  match basicEnd s with
  | some e => some (e, WordTokenKind.Word)
  | none => none

/-- The compound joiner class [-_·] (words.rs line 121). -/
def isJoinerC (c : Char) : Bool :=
  c == '-' || c == '_' || c == '·'

/-- The compound tail class ['’\p{Alpha}\p{Digit}] (words.rs line 121). -/
def isCompoundTailC (c : Char) : Bool :=
  isAlnumC c || isApostropheC c

/-- Characters consumed by the greedy repetitions of
(?:[-_·]+[\p{Alpha}\p{Digit}]['’\p{Alpha}\p{Digit}]*)+ after the first
segment.  Joiners cannot appear in a segment tail and tail characters
cannot serve as joiners, so backtracking across iterations is futile and
greedy maximal munch is exact. -/
def compoundIters : Nat → List Char → Nat
  | 0, _ => 0
  | fuel + 1, s =>
    let j := countWhile isJoinerC s
    if 1 ≤ j then
      match s.drop j with
      | c :: rest =>
        if isAlnumC c then
          let t := countWhile isCompoundTailC rest
          j + 1 + t + compoundIters fuel (rest.drop t)
        else 0
      | [] => 0
    else 0

/-- COMPOUND_WORD_REGEX (words.rs line 121):
^[\p{Alpha}\p{Digit}]+(?:[-_·]+[\p{Alpha}\p{Digit}]['’\p{Alpha}\p{Digit}]*)+ -/
def compoundEnd (s : List Char) : Option Nat :=
  let k := countWhile isAlnumC s
  if 1 ≤ k then
    let t := compoundIters s.length (s.drop k)
    if 1 ≤ t then some (k + t) else none
  else none

/-- The clitic pronouns of FRENCH_ILLEGAL_COMPOUND_REGEX (words.rs line
125), each alternative expanded, longer alternatives before their prefixes
as in the s? forms. -/
def PRONOUNS : List (List Char) :=
  [lc "je", lc "tu", lc "ils", lc "il", lc "elles", lc "elle", lc "nous",
   lc "vous", lc "on", lc "les", lc "le", lc "la", lc "moi", lc "toi",
   lc "lui", lc "y"]

/-- FRENCH_ILLEGAL_COMPOUND_REGEX as an is_match test (words.rs line 125):
(?i)(?:-t)?-(?:je|tu|ils?|elles?|[nv]ous|on|les?|la|moi|toi|lui|y)$,
i.e. does the string end in a hyphen followed by a clitic pronoun,
optionally preceded by -t. -/
def frenchIllegalCompound (s : List Char) : Bool :=
  let low := s.map toLowerChar
  PRONOUNS.any (fun p =>
    List.isSuffixOf ('-' :: p) low ||
    List.isSuffixOf ('-' :: 't' :: '-' :: p) low)

/-- Greedy descent used for backtracking a greedy repetition: try the
largest count first, then smaller ones. -/
def tryDescend (f : Nat → Option Nat) : Nat → Option Nat
  | 0 => f 0
  | k + 1 =>
    match f (k + 1) with
    | some e => some e
    | none => tryDescend f k

/-- The literal aujourd-hui with the given apostrophe character. -/
def AUJOURDHUI (a : Char) : List Char :=
  lc "aujourd" ++ [a] ++ lc "hui"

/-- Apostrophe rule 1 (words.rs line 106):
(?i)^(aujourd['’]hui|\p{Alpha}+n['’]t); group 1 is the whole alternative.
The first alternative is tried first; in the second, \p{Alpha}+ is greedy,
so the largest letter count j with n['’]t following is preferred. -/
def rule1End (s : List Char) : Option Nat :=
  if (s.take 11).map toLowerChar == AUJOURDHUI apos ||
     (s.take 11).map toLowerChar == AUJOURDHUI '’' then some 11
  else
    let r := countWhile isAlphaC s
    tryDescend (fun j =>
      match s.drop j with
      | a :: b :: c :: _ =>
        if 1 ≤ j && (s.take j).all isAlphaC && toLowerChar a == 'n' &&
           isApostropheC b && toLowerChar c == 't' then some (j + 3)
        else none
      | _ => none) r

/-- The bare-enclitic alternatives of apostrophe rule 2, in the order the
regex tries them. -/
def ENCLITICS2 : List (List Char) :=
  [lc "twas", lc "tis", lc "ll", lc "re", lc "ve", lc "d", lc "m", lc "s"]

/-- Try the rule-2 enclitics in order; each must be followed by \b. -/
def rule2Try (rest s : List Char) : List (List Char) → Option Nat
  | [] => none
  | e :: more =>
    let n := e.length
    if (rest.take n).map toLowerChar == e && boundaryAt s (1 + n) then
      some (1 + n)
    else rule2Try rest s more

/-- Apostrophe rule 2 (words.rs line 108):
(?i)^(['’](?:twas|tis|ll|re|ve|[dms]))\b. -/
def rule2End (s : List Char) : Option Nat :=
  match s with
  | a :: rest => if isApostropheC a then rule2Try rest s ENCLITICS2 else none
  | [] => none

/-- The body of apostrophe rule 3 after group 1 (the article and its
apostrophe) of length g1: one character of [VOWELS h#@], then \p{Alpha}*,
then \b.  The greedy star backtracks: only the maximal count and, when the
preceding class character is a non-word character, the empty count can
satisfy \b, and the descent tries them in the regex's order. -/
def rule3From (s : List Char) (g1 : Nat) : Option Nat :=
  match s.drop g1 with
  | c :: rest =>
    if isVowelCI c || toLowerChar c == 'h' || c == '#' || c == '@' then
      if (tryDescend (fun k =>
          if (rest.take k).all isAlphaC && boundaryAt s (g1 + 1 + k) then
            some (g1 + 1 + k)
          else none) (countWhile isAlphaC rest)).isSome then
        some g1
      else none
    else none
  | [] => none

/-- The single-consonant alternative of rule 3's group 1. -/
def rule3Single (s : List Char) : Option Nat :=
  match s with
  | a :: b :: _ =>
    if CONSONANTS_APOSTROPHE.contains (toLowerChar a) && isApostropheC b then
      rule3From s 2
    else none
  | _ => none

/-- Apostrophe rule 3 (words.rs line 110):
(?i)^((?:qu|[cdjlmnst])['’])[VOWELS h#@]\p{Alpha}*\b; group 1 is the
article and its apostrophe.  The qu alternative is tried before the single
consonant one. -/
def rule3End (s : List Char) : Option Nat :=
  match s with
  | a :: b :: c :: _ =>
    if toLowerChar a == 'q' && toLowerChar b == 'u' && isApostropheC c then
      if (rule3From s 3).isSome then rule3From s 3 else rule3Single s
    else rule3Single s
  | _ => rule3Single s

/-- The contraction enclitics of apostrophe rule 4, in regex order. -/
def ENCLITICS4 : List (List Char) :=
  [lc "ll", lc "re", lc "ve", lc "d", lc "m", lc "s"]

/-- Try the rule-4 enclitics in order; each must be followed by \b; group 1
is the single leading letter. -/
def rule4Try (s : List Char) : List (List Char) → Option Nat
  | [] => none
  | e :: more =>
    let n := e.length
    if ((s.drop 2).take n).map toLowerChar == e && boundaryAt s (2 + n) then
      some 1
    else rule4Try s more

/-- Apostrophe rule 4 (words.rs line 112):
(?i)^(\p{Alpha})['’](?:ll|re|ve|[dms])\b; group 1 is the single letter. -/
def rule4End (s : List Char) : Option Nat :=
  match s with
  | a :: b :: _ =>
    if isAlphaC a && isApostropheC b then rule4Try s ENCLITICS4 else none
  | _ => none

/-- Apostrophe rule 5 (words.rs line 114):
(?i)^((?:[dlmno])['’]\p{Alpha}+)\b; group 1 is the whole name. -/
def rule5End (s : List Char) : Option Nat :=
  match s with
  | a :: b :: rest =>
    if LETTERS_START_NAME.contains (toLowerChar a) && isApostropheC b then
      let k := countWhile isAlphaC rest
      if 1 ≤ k && boundaryAt s (2 + k) then some (2 + k) else none
    else none
  | _ => none

/-- APOSTROPHE_REGEX searched with captures (words.rs lines 103-118,
332-346): the five anchored rules are tried in pattern order and the end of
group 1 of the first matching rule is returned. -/
def parse_apostrophe_end (s : List Char) : Option Nat :=
  match rule1End s with
  | some e => some e
  | none =>
  match rule2End s with
  | some e => some e
  | none =>
  match rule3End s with
  | some e => some e
  | none =>
  match rule4End s with
  | some e => some e
  | none => rule5End s

/-- Models WordTokens::chomp (words.rs lines 288-292): trim the leading
run of control characters and whitespace. -/
def chomp (l : List Char) : List Char :=
  l.dropWhile is_ascii_junk_or_whitespace

/-- Models str::trim_end: drop the trailing run of whitespace. -/
def trimEnd (l : List Char) : List Char :=
  (l.reverse.dropWhile isWs).reverse

/-- Models WordTokens::split_at (words.rs lines 278-286): the consumed text
is the prefix of length i with trailing whitespace trimmed; the remainder
keeps that trimmed whitespace. -/
def split_at (input : List Char) (i : Nat) : List Char × List Char :=
  let text := trimEnd (input.take i)
  (text, input.drop text.length)

/-- Position of the first hyphen, modelling the char_indices().find call of
parse_compound_word (words.rs lines 316-320); for the one-byte hyphen the
byte index and the character index denote the same boundary. -/
def findHyphen : List Char → Option Nat
  | [] => none
  | c :: r => if c = '-' then some 0 else (findHyphen r).map (· + 1)

/-- Models WordTokens::parse_compound_word (words.rs lines 308-330):
a compound match is either consumed whole, or, when its text matches the
French illegal-compound suffix, truncated at the first hyphen with the
hyphen itself skipped. -/
def parse_compound_word (input : List Char) :
    Option (List Char × List Char) :=
  match compoundEnd input with
  | none => none
  | some e =>
    if frenchIllegalCompound (input.take e) then
      match findHyphen (input.take e) with
      | some i => some (input.take i, input.drop (i + 1))
      | none => none
    else some (split_at input e)

/-- Models Iterator::next for WordTokens (words.rs lines 349-391): chomp,
stop on empty input, then try the compound recognizer, the simple-pattern
table, the apostrophe rules, and finally the generic one-character
punctuation or alphanumeric-run fallback.  Returns the token and the
remaining input. -/
def nextToken (input0 : List Char) : Option (WordToken × List Char) :=
  match chomp input0 with
  | [] => none
  | c :: rest =>
    let input := c :: rest
    match parse_compound_word input with
    | some (t, r) => some (⟨WordTokenKind.Word, t⟩, r)
    | none =>
      match simplePatternMatch input with
      | some (e, k) =>
        let p := split_at input e
        some (⟨k, p.1⟩, p.2)
      | none =>
        match parse_apostrophe_end input with
        | some e =>
          let p := split_at input e
          some (⟨WordTokenKind.Word, p.1⟩, p.2)
        | none =>
          if isAlnumC c then
            let i := 1 + countWhile isAlnumC rest
            let p := split_at input i
            some (⟨WordTokenKind.Word, p.1⟩, p.2)
          else
            let p := split_at input 1
            some (⟨WordTokenKind.Punctuation, p.1⟩, p.2)

/-- Iterating the scanner with explicit fuel (each pull strictly shrinks
the input, so any fuel above the input length is enough; see
tokenizeFuel_fuel_free below). -/
def tokenizeFuel : Nat → List Char → List WordToken
  | 0, _ => []
  | fuel + 1, input =>
    match nextToken input with
    | none => []
    | some (t, rest) => t :: tokenizeFuel fuel rest

/-- Models WordTokens::from(text).collect(): the full token sequence of an
input. -/
def tokenizeAll (s : List Char) : List WordToken :=
  tokenizeFuel (s.length + 1) s

/-- Shorthand for a word token. -/
def wtok (s : List Char) : WordToken := ⟨WordTokenKind.Word, s⟩

/-- The four states of the hashtag splitter (hashtags.rs lines 4-9). -/
inductive HState where
  | UpperStart
  | UpperNext
  | Number
  | Lower
deriving DecidableEq, Repr

/-- The HashtagParts iterator state (hashtags.rs lines 13-19): the full
input, the byte offset of the pending sub-word, the machine state, the done
flag, and the remaining char_indices items (byte index and character). -/
structure HashtagParts where
  input : List Char
  offset : Nat
  state : HState
  done : Bool
  chars : List (Nat × Char)
deriving DecidableEq, Repr

/-- Models str::char_indices from a given byte position. -/
def charIndicesFrom (pos : Nat) : List Char → List (Nat × Char)
  | [] => []
  | c :: r => (pos, c) :: charIndicesFrom (pos + c.utf8Size) r

/-- The suffix of l starting at byte index a, when a is a character
boundary; none models the panic of slicing at a non-boundary. -/
def dropToByte : List Char → Nat → Option (List Char)
  | l, 0 => some l
  | [], _ + 1 => none
  | c :: r, a + 1 =>
    if c.utf8Size ≤ a + 1 then dropToByte r (a + 1 - c.utf8Size) else none

/-- The prefix of l of b bytes, when b is a character boundary. -/
def takeToByte : List Char → Nat → Option (List Char)
  | _, 0 => some []
  | [], _ + 1 => none
  | c :: r, b + 1 =>
    if c.utf8Size ≤ b + 1 then (takeToByte r (b + 1 - c.utf8Size)).map (c :: ·)
    else none

/-- Models the slice l[a..b]; none models the panic on a reversed range or
a byte index that is not a character boundary. -/
def byteSlice (l : List Char) (a b : Nat) : Option (List Char) :=
  if a ≤ b then (dropToByte l a).bind (fun s => takeToByte s (b - a)) else none

/-- Models TryFrom for HashtagParts (hashtags.rs lines 21-45): the input
must start with # or $ and have at least one further character; the
iterator starts after that second character with byte offset 1 and state
UpperStart. -/
def hashtagTryFrom (l : List Char) : Option HashtagParts :=
  match l with
  | c :: c2 :: rest =>
    if c == '#' || c == '$' then
      some ⟨l, 1, HState.UpperStart, false,
            charIndicesFrom (c.utf8Size + c2.utf8Size) rest⟩
    else none
  | _ => none

/-- The transition table of the splitter (hashtags.rs lines 60-99): for a
state and the next character, an optional carry-back delta in bytes (a
boundary is emitted at the character's byte index minus the delta) and the
next state. -/
def hstep (st : HState) (c : Char) : Option Nat × HState :=
  match st with
  | HState.Lower =>
    if isUpperC c then (some 0, HState.UpperStart)
    else if isNumericC c then (some 0, HState.Number)
    else (none, HState.Lower)
  | HState.UpperStart =>
    if isLowerC c then (none, HState.Lower)
    else if isNumericC c then (some 0, HState.Number)
    else (none, HState.UpperNext)
  | HState.UpperNext =>
    if isLowerC c then (some 1, HState.Lower)
    else if isNumericC c then (some 0, HState.Number)
    else (none, HState.UpperNext)
  | HState.Number =>
    if !isNumericC c then
      if isUpperC c then (some 0, HState.UpperStart)
      else (some 0, HState.Lower)
    else (none, HState.Number)

/-- Result of one pull of the splitter: a crash (an out-of-boundary slice,
i.e. a panic in the Rust code) or an emitted part with the updated
iterator. -/
inductive HStep where
  | crashed
  | emit (part : List Char) (rest : HashtagParts)
deriving DecidableEq, Repr

/-- The loop inside Iterator::next for HashtagParts (hashtags.rs lines
57-114): walk the remaining characters until a transition emits a
boundary; at the end of input, flush the pending span and finish. -/
def hnextLoop (input : List Char) (offset : Nat) (st : HState) :
    List (Nat × Char) → HStep
  | [] =>
    match dropToByte input offset with
    | none => HStep.crashed
    | some part => HStep.emit part ⟨input, offset, st, true, []⟩
  | (i, c) :: more =>
    match hstep st c with
    | (some delta, st') =>
      match byteSlice input offset (i - delta) with
      | none => HStep.crashed
      | some part => HStep.emit part ⟨input, i - delta, st', false, more⟩
    | (none, st') => hnextLoop input offset st' more

/-- Models Iterator::next for HashtagParts (hashtags.rs lines 47-116). -/
def hnext (h : HashtagParts) : Option HStep :=
  if h.done then none
  else some (hnextLoop h.input h.offset h.state h.chars)

/-- Collect the splitter's parts with explicit fuel; none models either a
panic or fuel exhaustion (the latter never occurs with the fuel used by
splitHashtag, see the claim-9 and claim-6 theorems). -/
def hcollect : Nat → HashtagParts → Option (List (List Char))
  | 0, _ => none
  | fuel + 1, h =>
    match hnext h with
    | none => some []
    | some HStep.crashed => none
    | some (HStep.emit part h') => (hcollect fuel h').map (part :: ·)

/-- Models HashtagParts::try_from(text).collect(): the sub-words of a
hashtag, or none when the input is rejected or the iterator panics. -/
def splitHashtag (l : List Char) : Option (List (List Char)) :=
  match hashtagTryFrom l with
  | none => none
  | some h => hcollect (l.length + 2) h

instance : Fintype WordTokenKind :=
  ⟨⟨{WordTokenKind.Word, WordTokenKind.Hashtag, WordTokenKind.Mention,
     WordTokenKind.Emoji, WordTokenKind.Punctuation, WordTokenKind.Number,
     WordTokenKind.Url, WordTokenKind.Email}, by decide⟩, by
    intro k; cases k <;> decide⟩

/-- Models WordToken::is_junk (words.rs lines 265-270): only word-kind
tokens are tested with the junk heuristic. -/
def token_is_junk (t : WordToken) : Bool :=
  match t.kind with
  | WordTokenKind.Word => is_junk t.text
  | _ => false

/-- Models the compiled stoplist regex (?i)^(?:w1|...|wn)$ built by
WordTokenizerBuilder::build (words.rs lines 528-546): a case-insensitive
exact match of the whole token text against one of the stopwords. -/
def stopMatch (pats : List (List Char)) (t : List Char) : Bool :=
  pats.any (fun w => t.map toLowerChar == w.map toLowerChar)

/-- Models WordTokenizer (words.rs lines 399-406); the EnumSet kind
blacklist is modelled by a Finset. -/
structure WordTokenizer where
  stoplist_regex : Option (List (List Char))
  kind_blacklist : Finset WordTokenKind
  min_token_char_count : Option Nat
  max_token_char_count : Option Nat
  filter_junk : Bool

/-- Models WordTokenizer::token_predicate (words.rs lines 413-441). -/
def token_predicate (tk : WordTokenizer) (t : WordToken) : Bool :=
  let minFail : Bool := match tk.min_token_char_count with
    | some mn => Nat.blt t.text.length mn
    | none => false
  let maxFail : Bool := match tk.max_token_char_count with
    | some mx => Nat.blt mx t.text.length
    | none => false
  let stopFail : Bool := match tk.stoplist_regex with
    | some pats => stopMatch pats t.text
    | none => false
  if t.kind ∈ tk.kind_blacklist then false
  else if minFail then false
  else if maxFail then false
  else if stopFail then false
  else if tk.filter_junk && token_is_junk t then false
  else true

/-- Models WordTokenizer::tokenize (words.rs lines 443-448): the scanner's
sequence filtered by the token predicate. -/
def tokenize (tk : WordTokenizer) (s : List Char) : List WordToken :=
  (tokenizeAll s).filter (fun t => token_predicate tk t)

/-- Models WordTokenizerBuilder (words.rs lines 464-471). -/
structure WordTokenizerBuilder where
  stoplist : List (List Char)
  kind_blacklist : Finset WordTokenKind
  min_token_char_count : Option Nat
  max_token_char_count : Option Nat
  filter_junk : Bool

/-- Models WordTokenizerBuilder::new / default. -/
def builderNew : WordTokenizerBuilder :=
  ⟨[], ∅, none, none, false⟩

/-- Models WordTokenizerBuilder::token_kind_blacklist (words.rs lines
494-502): the stored blacklist is cleared and the given kinds inserted. -/
def token_kind_blacklist (b : WordTokenizerBuilder)
    (kinds : Finset WordTokenKind) : WordTokenizerBuilder :=
  { b with kind_blacklist := kinds }

/-- Models WordTokenizerBuilder::token_kind_whitelist (words.rs lines
504-511): the stored blacklist is cleared and replaced by the complement
of the given kinds (EnumSet::all() minus the whitelist). -/
def token_kind_whitelist (b : WordTokenizerBuilder)
    (kinds : Finset WordTokenKind) : WordTokenizerBuilder :=
  { b with kind_blacklist := Finset.univ \ kinds }

/-- Models WordTokenizerBuilder::min_token_char_count. -/
def builder_min_token_char_count (b : WordTokenizerBuilder) (mn : Nat) :
    WordTokenizerBuilder :=
  { b with min_token_char_count := some mn }

/-- Models WordTokenizerBuilder::build (words.rs lines 528-555): the
stoplist is compiled (empty stopwords dropped) when non-empty. -/
def build (b : WordTokenizerBuilder) : WordTokenizer :=
  { stoplist_regex :=
      if b.stoplist.isEmpty then none
      else some (b.stoplist.filter (fun w => !w.isEmpty)),
    kind_blacklist := b.kind_blacklist,
    min_token_char_count := b.min_token_char_count,
    max_token_char_count := b.max_token_char_count,
    filter_junk := b.filter_junk }

/-- Number of the five apostrophe rule patterns matching at the start of
the input. -/
def ruleHits (s : List Char) : Nat :=
  (if (rule1End s).isSome then 1 else 0) +
  (if (rule2End s).isSome then 1 else 0) +
  (if (rule3End s).isSome then 1 else 0) +
  (if (rule4End s).isSome then 1 else 0) +
  (if (rule5End s).isSome then 1 else 0)

/-- C2: the code diverges from the claim on the string aabbcc: the repeat
counter of is_junk is never reset when the character changes, so three
doubled letters trigger the more-than-3-consecutive-repeats rule even
though no character is repeated more than twice consecutively and no other
junk condition holds; the four golden values of the claim do hold. -/
theorem claim2_divergence :
    is_junk (lc "aabbcc") = true ∧
    junkSpec (lc "aabbcc") = false ∧
    is_junk (lc "d") = true ∧
    is_junk ['d', apos] = false ∧
    is_junk (lc "aeaeaeae") = true ∧
    is_junk (lc "paltoquet") = false := by
  decide

/-- C3 counterexample: the input 1_000 is emitted as a single token, but
its kind is Word (the compound-word recognizer claims it; the number
pattern has no underscore separator), not Number as the claim states. -/
theorem claim3_counterexample :
    tokenizeAll (lc "1_000") = [⟨WordTokenKind.Word, lc "1_000"⟩] ∧
    ∀ t ∈ tokenizeAll (lc "1_000"), t.kind ≠ WordTokenKind.Number := by
  decide

/-- C3 amended: a digit sequence with underscore group separators such as
1_000 is emitted as a single token of kind Word via the compound-word
recognizer; the number recognizer accepts an optional leading minus,
digits, and at most one period or comma decimal separator, and does not
accept underscore separators (it rejects 1_000 entirely). -/
theorem claim3_amended :
    tokenizeAll (lc "1_000") = [⟨WordTokenKind.Word, lc "1_000"⟩] ∧
    numberEnd (lc "1_000") = none ∧
    tokenizeAll (lc "-2.5") = [⟨WordTokenKind.Number, lc "-2.5"⟩] ∧
    tokenizeAll (lc "2,5") = [⟨WordTokenKind.Number, lc "2,5"⟩] := by
  decide

/-- C4 counterexample: the five apostrophe rules are not mutually
exclusive: on the input l-apostrophe-amour both rule 3 (roman elided
article) and rule 5 (name-initial elision) match at the start, since the
letter l belongs to both CONSONANTS_APOSTROPHE and LETTERS_START_NAME. -/
theorem claim4_counterexample :
    ruleHits (['l', apos] ++ lc "amour") = 2 := by
  decide

/-- C4 amended: the five rules are not mutually exclusive (rules 3 and 5
both match inputs such as l-apostrophe-amour); at most one rule determines
the result because the matcher takes the lowest-numbered matching rule, so
that input resolves to rule 3, whose group ends after the apostrophe. -/
theorem claim4_amended :
    ruleHits (['l', apos] ++ lc "amour") = 2 ∧
    rule3End (['l', apos] ++ lc "amour") = some 2 ∧
    rule5End (['l', apos] ++ lc "amour") = some 7 ∧
    parse_apostrophe_end (['l', apos] ++ lc "amour") = some 2 ∧
    tokenizeAll (['l', apos] ++ lc "amour") =
      [⟨WordTokenKind.Word, ['l', apos]⟩,
       ⟨WordTokenKind.Word, lc "amour"⟩] := by
  decide

/-- C7: the four golden apostrophe cases: l-amour splits after the elided
article, O-Hara stays one name token, can-t stays one contraction token,
and I-ll splits into the pronoun and the bare enclitic. -/
theorem claim7_golden_apostrophes :
    tokenizeAll (['l', apos] ++ lc "amour") =
      [⟨WordTokenKind.Word, ['l', apos]⟩,
       ⟨WordTokenKind.Word, lc "amour"⟩] ∧
    tokenizeAll (['O', apos] ++ lc "Hara") =
      [⟨WordTokenKind.Word, ['O', apos] ++ lc "Hara"⟩] ∧
    tokenizeAll (lc "can" ++ [apos, 't']) =
      [⟨WordTokenKind.Word, lc "can" ++ [apos, 't']⟩] ∧
    tokenizeAll (['I', apos] ++ lc "ll") =
      [⟨WordTokenKind.Word, ['I']⟩,
       ⟨WordTokenKind.Word, [apos] ++ lc "ll"⟩] := by
  decide

/-- C9: hashtag segmentation goldens, and the carry-back transition: in
state UpperNext (an uppercase run of length at least two) a lowercase
character emits the boundary one byte before its index, carrying the last
uppercase letter back to start the next sub-word, which is why
TestWhatever splits as Test-Whatever and not Tes-tWhatever. -/
theorem claim9_hashtag_golden :
    splitHashtag (lc "#TestOkFinal") = some [lc "Test", lc "Ok", lc "Final"] ∧
    splitHashtag (lc "#TDF2018") = some [lc "TDF", lc "2018"] ∧
    splitHashtag (lc "#TestWhatever") = some [lc "Test", lc "Whatever"] ∧
    (∀ inp off i c rest, isLowerC c = true →
      hnextLoop inp off HState.UpperNext ((i, c) :: rest) =
        match byteSlice inp off (i - 1) with
        | none => HStep.crashed
        | some part => HStep.emit part ⟨inp, i - 1, HState.Lower, false, rest⟩) := by
  refine ⟨by decide, by decide, by decide, ?_⟩
  intro inp off i c rest h
  simp [hnextLoop, hstep, h]

/-- Witness for the universally quantified carry-back conjunct of the C9
theorem, instantiated on the hashtag body ABb at the character b. -/
theorem claim9_witness :
    isLowerC 'b' = true ∧
    hnextLoop (lc "#ABb") 1 HState.UpperNext [(3, 'b')] =
      (match byteSlice (lc "#ABb") 1 (3 - 1) with
       | none => HStep.crashed
       | some part =>
         HStep.emit part ⟨lc "#ABb", 3 - 1, HState.Lower, false, []⟩) :=
  ⟨by decide, claim9_hashtag_golden.2.2.2 (lc "#ABb") 1 3 'b' [] (by decide)⟩

/-- C6 counterexample: on the accepted hashtag #AÉb the carry-back
boundary is one byte before the lowercase b, which lands inside the
two-byte letter É: the slice is not on a character boundary and the
iterator panics (modelled by splitHashtag returning none). -/
theorem claim6_counterexample :
    (hashtagTryFrom ['#', 'A', 'É', 'b']).isSome = true ∧
    splitHashtag ['#', 'A', 'É', 'b'] = none := by
  decide

/-- C10: the kind allow-list is stored as the complement deny-set and each
of the two setters overwrites whatever filter was previously stored; with
only a whitelist configured a token passes the predicate exactly when its
kind is whitelisted; and the allow-list Number, Emoji applied to the input
1 chat star yields exactly the number and the emoji tokens. -/
theorem claim10_kind_filter :
    (∀ b K, (token_kind_whitelist b K).kind_blacklist = Finset.univ \ K) ∧
    (∀ b D, (token_kind_blacklist b D).kind_blacklist = D) ∧
    (∀ K t, token_predicate (build (token_kind_whitelist builderNew K)) t =
      decide (t.kind ∈ K)) ∧
    tokenize (build (token_kind_whitelist builderNew
        {WordTokenKind.Number, WordTokenKind.Emoji}))
      (lc "1 chat " ++ ['⭐', '️']) =
      [⟨WordTokenKind.Number, lc "1"⟩,
       ⟨WordTokenKind.Emoji, ['⭐', '️']⟩] := by
  refine ⟨fun b K => rfl, fun b D => rfl, fun K t => ?_, by decide⟩
  by_cases h : t.kind ∈ K <;>
    simp [token_predicate, build, token_kind_whitelist, builderNew, h]

theorem toLowerChar_hyphen (c : Char) (h : toLowerChar c = '-') : c = '-' := by
  unfold toLowerChar at h
  cases hf : lowerPairs.find? (fun p => p.1 == c) with
  | none => simpa [hf] using h
  | some p =>
    rw [hf] at h
    have hmem := List.mem_of_find?_eq_some hf
    have hall : ∀ q ∈ lowerPairs, q.2 ≠ '-' := by decide
    exact absurd h (hall p hmem)

theorem findHyphen_spec (l : List Char) (i : Nat) (h : findHyphen l = some i) :
    ∃ hlt : i < l.length, l[i] = '-' ∧ '-' ∉ l.take i := by
  induction l generalizing i with
  | nil => simp [findHyphen] at h
  | cons c r ih =>
    by_cases hc : c = '-'
    · rw [findHyphen, if_pos hc] at h
      obtain rfl : i = 0 := (Option.some_inj.mp h).symm
      refine ⟨Nat.succ_pos _, by simpa using hc, by simp⟩
    · rw [findHyphen, if_neg hc, Option.map_eq_some'] at h
      obtain ⟨j, hj, rfl⟩ := h
      obtain ⟨hlt, hget, hnot⟩ := ih j hj
      refine ⟨by simpa using Nat.succ_lt_succ hlt, by simpa using hget, ?_⟩
      simp only [List.take_succ_cons, List.mem_cons, not_or]
      exact ⟨fun he => hc he.symm, hnot⟩

theorem findHyphen_isSome (l : List Char) (h : '-' ∈ l) :
    (findHyphen l).isSome = true := by
  induction l with
  | nil => simp at h
  | cons c r ih =>
    by_cases hc : c = '-'
    · simp [findHyphen, hc]
    · rcases List.mem_cons.mp h with h1 | h1
      · exact absurd h1.symm hc
      · rw [findHyphen, if_neg hc]
        simpa using ih h1

theorem frenchIllegal_has_hyphen (l : List Char)
    (h : frenchIllegalCompound l = true) : '-' ∈ l := by
  unfold frenchIllegalCompound at h
  rw [List.any_eq_true] at h
  obtain ⟨p, _, hp⟩ := h
  rw [Bool.or_eq_true] at hp
  have hmemlow : '-' ∈ l.map toLowerChar := by
    rcases hp with hp | hp
    · exact (List.isSuffixOf_iff_suffix.mp hp).subset (by simp)
    · exact (List.isSuffixOf_iff_suffix.mp hp).subset (by simp)
  obtain ⟨c, hcl, hc⟩ := List.mem_map.mp hmemlow
  exact (toLowerChar_hyphen c hc) ▸ hcl

/-- C8: mother-in-law is one compound token, est-il splits into two word
tokens, and in general whenever the compound match's text matches the
French clitic suffix, the recognizer emits the text before the first
hyphen of the match and resumes scanning right after that hyphen (the
emitted text contains no hyphen, and text, hyphen and remainder
reassemble the input). -/
theorem claim8_compound_clitic :
    tokenizeAll (lc "mother-in-law") =
      [⟨WordTokenKind.Word, lc "mother-in-law"⟩] ∧
    tokenizeAll (lc "est-il") =
      [⟨WordTokenKind.Word, lc "est"⟩, ⟨WordTokenKind.Word, lc "il"⟩] ∧
    (∀ s e, compoundEnd s = some e →
      frenchIllegalCompound (s.take e) = true →
      ∃ i, parse_compound_word s = some (s.take i, s.drop (i + 1)) ∧
        s.take i ++ '-' :: s.drop (i + 1) = s ∧ '-' ∉ s.take i) := by
  refine ⟨by decide, by decide, ?_⟩
  intro s e hc hil
  have hhyp : '-' ∈ s.take e := frenchIllegal_has_hyphen _ hil
  obtain ⟨i, hfind⟩ := Option.isSome_iff_exists.mp (findHyphen_isSome _ hhyp)
  obtain ⟨hlt, hget, hnot⟩ := findHyphen_spec _ i hfind
  have hie : i < e := lt_of_lt_of_le hlt (List.length_take_le e s)
  have his : i < s.length := by
    have := hlt
    simp only [List.length_take, lt_min_iff] at this
    exact this.2
  refine ⟨i, ?_, ?_, ?_⟩
  · simp [parse_compound_word, hc, hil, hfind]
  · have hsi : s[i] = '-' := by
      have := hget
      rwa [List.getElem_take] at this
    calc s.take i ++ '-' :: s.drop (i + 1)
        = s.take i ++ s[i] :: s.drop (i + 1) := by rw [hsi]
      _ = s.take i ++ s.drop i := by rw [List.drop_eq_getElem_cons his]
      _ = s := List.take_append_drop i s
  · intro hmem
    apply hnot
    have : s.take i = (s.take e).take i := by
      rw [List.take_take, min_eq_left (le_of_lt hie)]
    rwa [this] at hmem

/-- Witness for the clitic clause of the C8 theorem, instantiated on the
input est-il whose compound match est-il carries the illegal suffix. -/
theorem claim8_witness :
    compoundEnd (lc "est-il") = some 6 ∧
    frenchIllegalCompound ((lc "est-il").take 6) = true ∧
    ∃ i, parse_compound_word (lc "est-il") =
        some ((lc "est-il").take i, (lc "est-il").drop (i + 1)) ∧
      (lc "est-il").take i ++ '-' :: (lc "est-il").drop (i + 1) = lc "est-il" ∧
      '-' ∉ (lc "est-il").take i :=
  ⟨by decide, by decide,
   claim8_compound_clitic.2.2 (lc "est-il") 6 (by decide) (by decide)⟩

theorem trimEnd_front (l : List Char) : trimEnd l <+: l := by
  have h := List.dropWhile_suffix (l := l.reverse) isWs
  rw [← List.reverse_suffix] at *
  simpa [trimEnd] using h

theorem trimEnd_eq_nil (l : List Char) (h : trimEnd l = []) :
    ∀ c ∈ l, isWs c = true := by
  intro c hc
  have : l.reverse.dropWhile isWs = [] := by
    have := congrArg List.reverse h
    simpa [trimEnd] using this
  exact List.dropWhile_eq_nil_iff.mp this c (by simpa using hc)

theorem split_at_decomp (c : Char) (r : List Char) (i : Nat)
    (hws : isWs c = false) (hi : 1 ≤ i) :
    c :: r = (split_at (c :: r) i).1 ++ (split_at (c :: r) i).2 ∧
    (split_at (c :: r) i).1 ≠ [] := by
  constructor
  · have hpre : (split_at (c :: r) i).1 <+: c :: r :=
      (trimEnd_front _).trans (List.take_prefix i (c :: r))
    have := List.prefix_iff_eq_append.mp hpre
    exact this.symm
  · intro hnil
    obtain ⟨j, rfl⟩ : ∃ j, i = j + 1 := ⟨i - 1, by omega⟩
    have heq : (c :: r).take (j + 1) = c :: r.take j := rfl
    have h2 : trimEnd (c :: r.take j) = [] := by
      simpa [split_at, heq] using hnil
    have := trimEnd_eq_nil _ h2 c (List.mem_cons_self c _)
    rw [hws] at this
    exact Bool.false_ne_true this

theorem dropWhile_cons_head {p : Char → Bool} {l : List Char} {c : Char}
    {r : List Char} (h : l.dropWhile p = c :: r) : p c = false := by
  induction l with
  | nil => simp at h
  | cons a t ih =>
    rw [List.dropWhile_cons] at h
    split at h
    · exact ih h
    · cases h
      exact Bool.not_eq_true _ |>.mp (by assumption)

theorem countWhile_pos_head {p : Char → Bool} {c : Char} {l : List Char}
    (h : 1 ≤ countWhile p (c :: l)) : p c = true := by
  by_contra hp
  rw [Bool.not_eq_true] at hp
  simp [countWhile, List.takeWhile_cons, hp] at h

theorem utf8Size_eq_one_of_ascii {c : Char} (h : c.toNat ≤ 0x7f) :
    c.utf8Size = 1 := by
  unfold Char.utf8Size
  rw [if_pos]
  exact UInt32.le_def.mpr (by simpa [Char.toNat] using h)

theorem hashtagEnd_pos {s : List Char} {e : Nat} (h : hashtagEnd s = some e) :
    1 ≤ e := by
  unfold hashtagEnd at h
  dsimp only at h
  repeat' split at h
  all_goals cases h
  all_goals omega

theorem mentionEnd_pos {s : List Char} {e : Nat} (h : mentionEnd s = some e) :
    1 ≤ e := by
  unfold mentionEnd at h
  dsimp only at h
  repeat' split at h
  all_goals cases h
  all_goals omega

theorem numberEnd_pos {s : List Char} {e : Nat} (h : numberEnd s = some e) :
    1 ≤ e := by
  unfold numberEnd at h
  dsimp only at h
  repeat' split at h
  all_goals cases h
  all_goals omega

theorem emojiEnd_pos {s : List Char} {e : Nat} (h : emojiEnd s = some e) :
    1 ≤ e := by
  unfold emojiEnd at h
  dsimp only at h
  repeat' split at h
  all_goals cases h
  all_goals omega

theorem abbrevTry_pos {s : List Char} {cands : List (List Char)} {e : Nat}
    (h : abbrevTry s cands = some e) : 1 ≤ e := by
  induction cands with
  | nil => simp [abbrevTry] at h
  | cons a more ih =>
    unfold abbrevTry at h
    dsimp only at h
    split at h
    · cases h; omega
    · exact ih h

theorem urlScheme_pos {sch s : List Char} {e : Nat}
    (h : urlScheme sch s = some e) : 1 ≤ e := by
  unfold urlScheme at h
  split at h
  · cases h
    rename_i hcond
    rw [Bool.and_eq_true, decide_eq_true_eq] at hcond
    omega
  · cases h

theorem urlEnd_pos {s : List Char} {e : Nat} (h : urlEnd s = some e) :
    1 ≤ e := by
  unfold urlEnd at h
  split at h
  · cases h
    exact urlScheme_pos (by assumption)
  · exact urlScheme_pos h

theorem emailEnd_pos {s : List Char} {e : Nat} (h : emailEnd s = some e) :
    1 ≤ e := by
  unfold emailEnd at h
  dsimp only at h
  repeat' split at h
  all_goals cases h
  all_goals omega

theorem acronymEnd_pos {s : List Char} {e : Nat} (h : acronymEnd s = some e) :
    1 ≤ e := by
  unfold acronymEnd at h
  dsimp only at h
  repeat' split at h
  all_goals cases h
  all_goals omega

theorem basicEnd_pos {s : List Char} {e : Nat} (h : basicEnd s = some e) :
    1 ≤ e := by
  unfold basicEnd at h
  dsimp only at h
  repeat' split at h
  all_goals cases h
  all_goals omega

theorem simplePatternMatch_pos {s : List Char} {e : Nat} {k : WordTokenKind}
    (h : simplePatternMatch s = some (e, k)) : 1 ≤ e := by
  unfold simplePatternMatch at h
  repeat' split at h
  all_goals cases h
  · exact hashtagEnd_pos (by assumption)
  · exact mentionEnd_pos (by assumption)
  · exact numberEnd_pos (by assumption)
  · exact emojiEnd_pos (by assumption)
  · exact abbrevTry_pos (by assumption)
  · exact urlEnd_pos (by assumption)
  · exact emailEnd_pos (by assumption)
  · exact acronymEnd_pos (by assumption)
  · exact basicEnd_pos (by assumption)

theorem tryDescend_some {f : Nat → Option Nat} {k e : Nat}
    (h : tryDescend f k = some e) : ∃ j, j ≤ k ∧ f j = some e := by
  induction k with
  | zero => exact ⟨0, Nat.le_refl 0, h⟩
  | succ n ih =>
    unfold tryDescend at h
    split at h
    · cases h
      exact ⟨n + 1, Nat.le_refl _, by assumption⟩
    · obtain ⟨j, hj, hf⟩ := ih h
      exact ⟨j, Nat.le_succ_of_le hj, hf⟩

theorem rule1End_pos {s : List Char} {e : Nat} (h : rule1End s = some e) :
    1 ≤ e := by
  unfold rule1End at h
  split at h
  · cases h; omega
  · obtain ⟨j, _, hf⟩ := tryDescend_some h
    try dsimp only at hf
    repeat' split at hf
    all_goals cases hf
    omega

theorem rule2Try_pos {rest s : List Char} {cands : List (List Char)} {e : Nat}
    (h : rule2Try rest s cands = some e) : 1 ≤ e := by
  induction cands with
  | nil => simp [rule2Try] at h
  | cons a more ih =>
    unfold rule2Try at h
    try dsimp only at h
    split at h
    · cases h; omega
    · exact ih h

theorem rule2End_pos {s : List Char} {e : Nat} (h : rule2End s = some e) :
    1 ≤ e := by
  unfold rule2End at h
  repeat' split at h
  all_goals first
    | cases h
    | exact rule2Try_pos h

theorem rule3From_eq {s : List Char} {g1 e : Nat}
    (h : rule3From s g1 = some e) : e = g1 := by
  unfold rule3From at h
  repeat' split at h
  all_goals cases h
  rfl

theorem rule3Single_pos {s : List Char} {e : Nat}
    (h : rule3Single s = some e) : 1 ≤ e := by
  unfold rule3Single at h
  repeat' split at h
  all_goals first
    | cases h
    | (rw [rule3From_eq h]; omega)

theorem rule3End_pos {s : List Char} {e : Nat} (h : rule3End s = some e) :
    1 ≤ e := by
  unfold rule3End at h
  repeat' split at h
  all_goals first
    | exact rule3Single_pos h
    | (rw [rule3From_eq h]; omega)

theorem rule4Try_pos {s : List Char} {cands : List (List Char)} {e : Nat}
    (h : rule4Try s cands = some e) : 1 ≤ e := by
  induction cands with
  | nil => simp [rule4Try] at h
  | cons a more ih =>
    unfold rule4Try at h
    try dsimp only at h
    split at h
    · cases h; omega
    · exact ih h

theorem rule4End_pos {s : List Char} {e : Nat} (h : rule4End s = some e) :
    1 ≤ e := by
  unfold rule4End at h
  repeat' split at h
  all_goals first
    | cases h
    | exact rule4Try_pos h

theorem rule5End_pos {s : List Char} {e : Nat} (h : rule5End s = some e) :
    1 ≤ e := by
  cases s with
  | nil => simp [rule5End] at h
  | cons a t =>
    cases t with
    | nil => simp [rule5End] at h
    | cons b rest =>
      unfold rule5End at h
      try dsimp only at h
      repeat' split at h
      all_goals cases h
      all_goals omega

theorem parse_apostrophe_end_pos {s : List Char} {e : Nat}
    (h : parse_apostrophe_end s = some e) : 1 ≤ e := by
  unfold parse_apostrophe_end at h
  repeat' split at h
  all_goals first
    | (cases h; first
        | exact rule1End_pos (by assumption)
        | exact rule2End_pos (by assumption)
        | exact rule3End_pos (by assumption)
        | exact rule4End_pos (by assumption))
    | exact rule5End_pos h

theorem compoundEnd_pos {s : List Char} {e : Nat}
    (h : compoundEnd s = some e) : 1 ≤ e := by
  unfold compoundEnd at h
  dsimp only at h
  repeat' split at h
  all_goals cases h
  all_goals omega

theorem compoundEnd_head {s : List Char} {e : Nat}
    (h : compoundEnd s = some e) :
    ∃ c r, s = c :: r ∧ isAlnumC c = true := by
  unfold compoundEnd at h
  dsimp only at h
  repeat' split at h
  all_goals cases h
  rename_i hk _
  cases s with
  | nil => simp [countWhile] at hk
  | cons c r => exact ⟨c, r, rfl, countWhile_pos_head hk⟩

theorem junk_of_ws {c : Char} (h : isWs c = true) :
    is_ascii_junk_or_whitespace c = true := by
  simp [is_ascii_junk_or_whitespace, h]

theorem compound_illegal_parts {s : List Char} {e i : Nat}
    (hce : compoundEnd s = some e) (hil : frenchIllegalCompound (s.take e) = true)
    (hfind : findHyphen (s.take e) = some i) :
    1 ≤ i ∧ s.take i ++ '-' :: s.drop (i + 1) = s ∧ '-' ∉ s.take i := by
  obtain ⟨hlt, hget, hnot⟩ := findHyphen_spec _ i hfind
  have hie : i < e := lt_of_lt_of_le hlt (List.length_take_le e s)
  have his : i < s.length := by
    have := hlt
    simp only [List.length_take, lt_min_iff] at this
    exact this.2
  have hsi : s[i] = '-' := by
    have := hget
    rwa [List.getElem_take] at this
  have htk : s.take i = (s.take e).take i := by
    rw [List.take_take, min_eq_left (le_of_lt hie)]
  refine ⟨?_, ?_, ?_⟩
  · by_contra hlt1
    obtain rfl : i = 0 := by omega
    obtain ⟨c, r, rfl, hal⟩ := compoundEnd_head hce
    have : c = '-' := by simpa using hsi
    subst this
    simp [isAlnumC, isAlphaC, isUpperC, isLowerC, isNumericC, isDigitC,
      lowerPairs] at hal
  · calc s.take i ++ '-' :: s.drop (i + 1)
        = s.take i ++ s[i] :: s.drop (i + 1) := by rw [hsi]
      _ = s.take i ++ s.drop i := by rw [List.drop_eq_getElem_cons his]
      _ = s := List.take_append_drop i s
  · intro hmem
    exact hnot (htk ▸ hmem)

theorem parse_compound_word_decomp {s t0 r0 : List Char} {c : Char}
    {r : List Char} (hs : s = c :: r) (hws : isWs c = false)
    (h : parse_compound_word s = some (t0, r0)) :
    ∃ sep, s = t0 ++ sep ++ r0 ∧ (sep = [] ∨ sep = ['-']) ∧ t0 ≠ [] := by
  unfold parse_compound_word at h
  split at h
  · exact absurd h (by simp)
  · rename_i e hce
    split at h
    · rename_i hil
      split at h
      · rename_i i hfind
        cases h
        obtain ⟨hi1, hdec, _⟩ := compound_illegal_parts hce hil hfind
        refine ⟨['-'], ?_, Or.inr rfl, ?_⟩
        · calc s = s.take i ++ '-' :: s.drop (i + 1) := hdec.symm
            _ = s.take i ++ ['-'] ++ s.drop (i + 1) := by simp
        · subst hs
          obtain ⟨j, rfl⟩ : ∃ j, i = j + 1 := ⟨i - 1, by omega⟩
          simp [List.take_succ_cons]
      · exact absurd h (by simp)
    · cases h
      have he1 : 1 ≤ e := compoundEnd_pos hce
      subst hs
      obtain ⟨hdec, hne⟩ := split_at_decomp c r e hws he1
      exact ⟨[], by simpa using hdec, Or.inl rfl, hne⟩

theorem nextToken_decomp {input : List Char} {t : WordToken}
    {rest : List Char} (h : nextToken input = some (t, rest)) :
    ∃ pre sep, input = pre ++ t.text ++ sep ++ rest ∧
      (∀ c ∈ pre, is_ascii_junk_or_whitespace c = true) ∧
      (sep = [] ∨ sep = ['-']) ∧ t.text ≠ [] := by
  have hsplit : input =
      input.takeWhile is_ascii_junk_or_whitespace ++ chomp input :=
    (List.takeWhile_append_dropWhile is_ascii_junk_or_whitespace input).symm
  have hpre : ∀ c ∈ input.takeWhile is_ascii_junk_or_whitespace,
      is_ascii_junk_or_whitespace c = true := fun c hc =>
    List.mem_takeWhile_imp hc
  unfold nextToken at h
  cases hch : chomp input with
  | nil => rw [hch] at h; simp at h
  | cons c rest' =>
    rw [hch] at h
    rw [hch] at hsplit
    have hcjunk : is_ascii_junk_or_whitespace c = false :=
      dropWhile_cons_head hch
    have hcws : isWs c = false := by
      cases hw : isWs c
      · rfl
      · rw [junk_of_ws hw] at hcjunk
        exact absurd hcjunk (by decide)
    dsimp only at h
    cases hpc : parse_compound_word (c :: rest') with
    | some pr =>
      obtain ⟨t0, r0⟩ := pr
      rw [hpc] at h
      dsimp only at h
      obtain ⟨ht, hr⟩ := Prod.mk.inj (Option.some.inj h)
      subst hr
      subst ht
      obtain ⟨sep, hdec, hsep, hne⟩ :=
        parse_compound_word_decomp rfl hcws hpc
      refine ⟨input.takeWhile is_ascii_junk_or_whitespace, sep, ?_, hpre,
        hsep, hne⟩
      show input = input.takeWhile is_ascii_junk_or_whitespace ++
          t0 ++ sep ++ r0
      calc input = input.takeWhile is_ascii_junk_or_whitespace ++
            (c :: rest') := hsplit
        _ = input.takeWhile is_ascii_junk_or_whitespace ++
            (t0 ++ sep ++ r0) := by rw [← hdec]
        _ = input.takeWhile is_ascii_junk_or_whitespace ++
            t0 ++ sep ++ r0 := by simp [List.append_assoc]
    | none =>
      rw [hpc] at h
      dsimp only at h
      cases hsp : simplePatternMatch (c :: rest') with
      | some pr =>
        obtain ⟨e, k⟩ := pr
        rw [hsp] at h
        dsimp only at h
        obtain ⟨ht, hr⟩ := Prod.mk.inj (Option.some.inj h)
        subst hr
        subst ht
        have he1 : 1 ≤ e := simplePatternMatch_pos hsp
        obtain ⟨hdec, hne⟩ := split_at_decomp c rest' e hcws he1
        refine ⟨input.takeWhile is_ascii_junk_or_whitespace, [], ?_, hpre,
          Or.inl rfl, hne⟩
        show input = input.takeWhile is_ascii_junk_or_whitespace ++
            (split_at (c :: rest') e).1 ++ [] ++ (split_at (c :: rest') e).2
        calc input = input.takeWhile is_ascii_junk_or_whitespace ++
              (c :: rest') := hsplit
          _ = input.takeWhile is_ascii_junk_or_whitespace ++
              ((split_at (c :: rest') e).1 ++ (split_at (c :: rest') e).2) := by
                rw [← hdec]
          _ = _ := by simp [List.append_assoc]
      | none =>
        rw [hsp] at h
        dsimp only at h
        cases hap : parse_apostrophe_end (c :: rest') with
        | some e =>
          rw [hap] at h
          dsimp only at h
          obtain ⟨ht, hr⟩ := Prod.mk.inj (Option.some.inj h)
          subst hr
          subst ht
          have he1 : 1 ≤ e := parse_apostrophe_end_pos hap
          obtain ⟨hdec, hne⟩ := split_at_decomp c rest' e hcws he1
          refine ⟨input.takeWhile is_ascii_junk_or_whitespace, [], ?_, hpre,
            Or.inl rfl, hne⟩
          show input = input.takeWhile is_ascii_junk_or_whitespace ++
              (split_at (c :: rest') e).1 ++ [] ++ (split_at (c :: rest') e).2
          calc input = input.takeWhile is_ascii_junk_or_whitespace ++
                (c :: rest') := hsplit
            _ = input.takeWhile is_ascii_junk_or_whitespace ++
                ((split_at (c :: rest') e).1 ++ (split_at (c :: rest') e).2) := by
                  rw [← hdec]
            _ = _ := by simp [List.append_assoc]
        | none =>
          rw [hap] at h
          dsimp only at h
          split at h
          · obtain ⟨ht, hr⟩ := Prod.mk.inj (Option.some.inj h)
            subst hr
            subst ht
            obtain ⟨hdec, hne⟩ := split_at_decomp c rest'
              (1 + countWhile isAlnumC rest') hcws (by omega)
            refine ⟨input.takeWhile is_ascii_junk_or_whitespace, [], ?_,
              hpre, Or.inl rfl, hne⟩
            show input = input.takeWhile is_ascii_junk_or_whitespace ++
                (split_at (c :: rest') (1 + countWhile isAlnumC rest')).1 ++
                [] ++
                (split_at (c :: rest') (1 + countWhile isAlnumC rest')).2
            calc input = input.takeWhile is_ascii_junk_or_whitespace ++
                  (c :: rest') := hsplit
              _ = input.takeWhile is_ascii_junk_or_whitespace ++
                  ((split_at (c :: rest') (1 + countWhile isAlnumC rest')).1 ++
                   (split_at (c :: rest') (1 + countWhile isAlnumC rest')).2) := by
                    rw [← hdec]
              _ = _ := by simp [List.append_assoc]
          · obtain ⟨ht, hr⟩ := Prod.mk.inj (Option.some.inj h)
            subst hr
            subst ht
            obtain ⟨hdec, hne⟩ := split_at_decomp c rest' 1 hcws le_rfl
            refine ⟨input.takeWhile is_ascii_junk_or_whitespace, [], ?_,
              hpre, Or.inl rfl, hne⟩
            show input = input.takeWhile is_ascii_junk_or_whitespace ++
                (split_at (c :: rest') 1).1 ++ [] ++ (split_at (c :: rest') 1).2
            calc input = input.takeWhile is_ascii_junk_or_whitespace ++
                  (c :: rest') := hsplit
              _ = input.takeWhile is_ascii_junk_or_whitespace ++
                  ((split_at (c :: rest') 1).1 ++ (split_at (c :: rest') 1).2) := by
                    rw [← hdec]
              _ = _ := by simp [List.append_assoc]

theorem utf8Len_append (a b : List Char) :
    utf8Len (a ++ b) = utf8Len a + utf8Len b := by
  simp [utf8Len]

theorem utf8Len_pos {l : List Char} (h : l ≠ []) : 1 ≤ utf8Len l := by
  cases l with
  | nil => exact absurd rfl h
  | cons c r =>
    have := Char.utf8Size_pos c
    simp [utf8Len]
    omega

theorem nextToken_length_lt {input : List Char} {t : WordToken}
    {rest : List Char} (h : nextToken input = some (t, rest)) :
    rest.length < input.length := by
  obtain ⟨pre, sep, hdec, _, _, hne⟩ := nextToken_decomp h
  have := congrArg List.length hdec
  simp only [List.length_append] at this
  have htl : 1 ≤ t.text.length := by
    cases ht : t.text with
    | nil => exact absurd ht hne
    | cons a b => simp
  omega

theorem nextToken_utf8_lt {input : List Char} {t : WordToken}
    {rest : List Char} (h : nextToken input = some (t, rest)) :
    utf8Len rest < utf8Len input := by
  obtain ⟨pre, sep, hdec, _, _, hne⟩ := nextToken_decomp h
  have := congrArg utf8Len hdec
  simp only [utf8Len_append] at this
  have := utf8Len_pos hne
  omega

theorem nextToken_none_iff (input : List Char) :
    nextToken input = none ↔ chomp input = [] := by
  constructor
  · intro h
    cases hch : chomp input with
    | nil => rfl
    | cons c rest' =>
      unfold nextToken at h
      rw [hch] at h
      dsimp only at h
      cases hpc : parse_compound_word (c :: rest') with
      | some pr => rw [hpc] at h; simp at h
      | none =>
        rw [hpc] at h
        dsimp only at h
        cases hsp : simplePatternMatch (c :: rest') with
        | some pr => rw [hsp] at h; simp at h
        | none =>
          rw [hsp] at h
          dsimp only at h
          cases hap : parse_apostrophe_end (c :: rest') with
          | some e => rw [hap] at h; simp at h
          | none =>
            rw [hap] at h
            dsimp only at h
            split at h <;> simp at h
  · intro h
    unfold nextToken
    rw [h]

theorem tokenizeFuel_congr :
    ∀ n input, input.length ≤ n → ∀ f₁ f₂, input.length < f₁ →
      input.length < f₂ → tokenizeFuel f₁ input = tokenizeFuel f₂ input := by
  intro n
  induction n with
  | zero =>
    intro input hn f₁ f₂ h1 h2
    obtain rfl : input = [] := List.length_eq_zero.mp (Nat.le_zero.mp hn)
    obtain ⟨g₁, rfl⟩ : ∃ g, f₁ = g + 1 := ⟨f₁ - 1, by omega⟩
    obtain ⟨g₂, rfl⟩ : ∃ g, f₂ = g + 1 := ⟨f₂ - 1, by omega⟩
    rfl
  | succ n ih =>
    intro input hn f₁ f₂ h1 h2
    obtain ⟨g₁, rfl⟩ : ∃ g, f₁ = g + 1 := ⟨f₁ - 1, by omega⟩
    obtain ⟨g₂, rfl⟩ : ∃ g, f₂ = g + 1 := ⟨f₂ - 1, by omega⟩
    simp only [tokenizeFuel]
    cases hnext : nextToken input with
    | none => rfl
    | some pr =>
      obtain ⟨t, rest⟩ := pr
      have hlt := nextToken_length_lt hnext
      dsimp only
      rw [ih rest (by omega) g₁ (rest.length + 1) (by omega) (by omega),
        ih rest (by omega) g₂ (rest.length + 1) (by omega) (by omega)]

theorem tokenizeAll_eq (input : List Char) :
    tokenizeAll input =
      match nextToken input with
      | none => []
      | some (t, rest) => t :: tokenizeAll rest := by
  unfold tokenizeAll
  simp only [tokenizeFuel]
  cases hnext : nextToken input with
  | none => rfl
  | some pr =>
    obtain ⟨t, rest⟩ := pr
    have hlt := nextToken_length_lt hnext
    dsimp only
    rw [tokenizeFuel_congr rest.length rest le_rfl input.length
      (rest.length + 1) (by omega) (by omega)]
    simp only [tokenizeFuel]

/-- C5: a pull of the scanner succeeds exactly when the input is non-empty
after trimming leading control characters and whitespace; every successful
pull returns one token with non-empty text and strictly decreases the byte
length (and the character length) of the remaining input; consequently the
fuelled iteration is fuel-independent above the input length, so iterating
the scanner to exhaustion terminates with the finite sequence tokenizeAll
computes. -/
theorem claim5_scanner_progress :
    ∀ input : List Char,
      ((nextToken input = none) ↔ chomp input = []) ∧
      (∀ t rest, nextToken input = some (t, rest) →
        t.text ≠ [] ∧ utf8Len rest < utf8Len input ∧
        rest.length < input.length) ∧
      (∀ f, input.length < f → tokenizeFuel f input = tokenizeAll input) := by
  intro input
  refine ⟨nextToken_none_iff input, ?_, ?_⟩
  · intro t rest h
    obtain ⟨pre, sep, hdec, hprop, hsep, hne⟩ := nextToken_decomp h
    exact ⟨hne, nextToken_utf8_lt h, nextToken_length_lt h⟩
  · intro f hf
    exact tokenizeFuel_congr input.length input le_rfl f (input.length + 1)
      hf (by omega)

/-- Witness for the C5 theorem at the concrete input hi: the pull succeeds,
the token text is non-empty and the remainder shrinks. -/
theorem claim5_witness :
    nextToken (lc "hi") = some (⟨WordTokenKind.Word, lc "hi"⟩, []) ∧
    ((⟨WordTokenKind.Word, lc "hi"⟩ : WordToken).text ≠ [] ∧
      utf8Len [] < utf8Len (lc "hi") ∧
      ([] : List Char).length < (lc "hi").length) :=
  ⟨by decide,
   (claim5_scanner_progress (lc "hi")).2.1 ⟨WordTokenKind.Word, lc "hi"⟩ []
     (by decide)⟩

theorem reconstruct_aux :
    ∀ n input, input.length ≤ n →
      ∃ pre seps,
        (∀ c ∈ pre, is_ascii_junk_or_whitespace c = true) ∧
        seps.length = (tokenizeAll input).length ∧
        (∀ l ∈ seps, ∀ c ∈ l,
          is_ascii_junk_or_whitespace c = true ∨ c = '-') ∧
        input = pre ++ (List.zipWith (fun t s => t.text ++ s)
          (tokenizeAll input) seps).flatten := by
  intro n
  induction n with
  | zero =>
    intro input hn
    obtain rfl : input = [] := List.length_eq_zero.mp (Nat.le_zero.mp hn)
    exact ⟨[], [], by simp, by decide, by simp, by decide⟩
  | succ n ih =>
    intro input hn
    cases hnext : nextToken input with
    | none =>
      have hch : chomp input = [] := (nextToken_none_iff input).mp hnext
      have hall : ∀ c ∈ input, is_ascii_junk_or_whitespace c = true :=
        List.dropWhile_eq_nil_iff.mp hch
      have htok : tokenizeAll input = [] := by
        rw [tokenizeAll_eq input, hnext]
      exact ⟨input, [], hall, by simp [htok], by simp, by simp [htok]⟩
    | some pr =>
      obtain ⟨t, rest⟩ := pr
      have htok : tokenizeAll input = t :: tokenizeAll rest := by
        rw [tokenizeAll_eq input, hnext]
      obtain ⟨pre0, sep0, hdec, hpre0, hsep0, hne⟩ := nextToken_decomp hnext
      have hlt := nextToken_length_lt hnext
      obtain ⟨pre1, seps1, hp1, hl1, hs1, heq1⟩ := ih rest (by omega)
      refine ⟨pre0, (sep0 ++ pre1) :: seps1, hpre0, ?_, ?_, ?_⟩
      · simp [htok, hl1]
      · intro l hl c hc
        rcases List.mem_cons.mp hl with rfl | hl'
        · rcases List.mem_append.mp hc with hc' | hc'
          · rcases hsep0 with rfl | rfl
            · simp at hc'
            · right; simpa using hc'
          · left; exact hp1 c hc'
        · exact hs1 l hl' c hc
      · rw [htok]
        calc input = pre0 ++ t.text ++ sep0 ++ rest := hdec
          _ = pre0 ++ t.text ++ sep0 ++
              (pre1 ++ (List.zipWith (fun t s => t.text ++ s)
                (tokenizeAll rest) seps1).flatten) := by rw [← heq1]
          _ = pre0 ++ ((t.text ++ (sep0 ++ pre1)) ++
              (List.zipWith (fun t s => t.text ++ s)
                (tokenizeAll rest) seps1).flatten) := by
                simp [List.append_assoc]
          _ = pre0 ++ (List.zipWith (fun t s => t.text ++ s)
              (t :: tokenizeAll rest) ((sep0 ++ pre1) :: seps1)).flatten := by
                simp

/-- C1 amended: for every input there is a decomposition of the input into
a leading trimmed prefix of control characters and whitespace, followed by
the emitted token texts interleaved with the separators the scanner
skipped; every skipped separator character is a control character
(codepoint at most 0x1F), whitespace, or the hyphen dropped by the French
clitic compound split.  Concatenating the token texts with the skipped
separators therefore reconstructs the input exactly from the first
retained character onward. -/
theorem claim1_amended (input : List Char) :
    ∃ pre seps,
      (∀ c ∈ pre, is_ascii_junk_or_whitespace c = true) ∧
      seps.length = (tokenizeAll input).length ∧
      (∀ l ∈ seps, ∀ c ∈ l,
        is_ascii_junk_or_whitespace c = true ∨ c = '-') ∧
      input = pre ++ (List.zipWith (fun t s => t.text ++ s)
        (tokenizeAll input) seps).flatten :=
  reconstruct_aux input.length input le_rfl

/-- C1 counterexample: on the input est-il the scanner emits est and il
and the only skipped separator between them is the hyphen dropped by the
French clitic compound split; no decomposition whose separators are all
control characters or whitespace can reassemble this input, so the claim
as stated fails. -/
theorem claim1_counterexample :
    tokenizeAll (lc "est-il") =
      [⟨WordTokenKind.Word, lc "est"⟩, ⟨WordTokenKind.Word, lc "il"⟩] ∧
    ¬ ∃ (pre : List Char) (seps : List (List Char)),
        (∀ c ∈ pre, is_ascii_junk_or_whitespace c = true) ∧
        seps.length = (tokenizeAll (lc "est-il")).length ∧
        (∀ l ∈ seps, ∀ c ∈ l, is_ascii_junk_or_whitespace c = true) ∧
        lc "est-il" = pre ++ (List.zipWith (fun t s => t.text ++ s)
          (tokenizeAll (lc "est-il")) seps).flatten := by
  refine ⟨by decide, ?_⟩
  rintro ⟨pre, seps, hpre, hlen, hseps, heq⟩
  rw [show tokenizeAll (lc "est-il") =
      [⟨WordTokenKind.Word, lc "est"⟩, ⟨WordTokenKind.Word, lc "il"⟩]
    from by decide] at hlen heq
  simp only [List.length_cons, List.length_nil] at hlen
  obtain ⟨s₁, s₂, rfl⟩ := List.length_eq_two.mp hlen
  have hs : lc "est-il" = ['e', 's', 't', '-', 'i', 'l'] := rfl
  have h3 : lc "est" = ['e', 's', 't'] := rfl
  have h2 : lc "il" = ['i', 'l'] := rfl
  rw [hs] at heq
  simp only [List.zipWith, List.flatten, h3, h2] at heq
  rcases pre with _ | ⟨x, pre'⟩
  · simp only [List.nil_append, List.append_assoc, List.cons_append,
      List.nil_append, List.append_nil] at heq
    have heq' : (['-', 'i', 'l'] : List Char) = s₁ ++ 'i' :: 'l' :: s₂ := by
      simpa using heq
    rcases s₁ with _ | ⟨y, s₁'⟩
    · simp at heq'
    · simp only [List.cons_append] at heq'
      obtain ⟨hy, _⟩ := List.cons.inj heq'
      have hj := hseps (y :: s₁') (by simp) y (by simp)
      rw [← hy] at hj
      exact absurd hj (by decide)
  · simp only [List.cons_append] at heq
    obtain ⟨hx, _⟩ := List.cons.inj heq
    have hj := hpre x (by simp)
    rw [← hx] at hj
    exact absurd hj (by decide)

theorem dropToByte_ascii {l : List Char} (hl : ∀ c ∈ l, c.utf8Size = 1) :
    ∀ a, a ≤ l.length → dropToByte l a = some (l.drop a) := by
  induction l with
  | nil =>
    intro a ha
    obtain rfl : a = 0 := Nat.le_zero.mp (by simpa using ha)
    rfl
  | cons c r ih =>
    intro a ha
    cases a with
    | zero => rfl
    | succ n =>
      have hc : c.utf8Size = 1 := hl c (List.mem_cons_self c r)
      have hrec := ih (fun x hx => hl x (List.mem_cons_of_mem _ hx)) n
        (by simpa using ha)
      simp only [dropToByte, hc]
      rw [if_pos (by omega)]
      simpa using hrec

theorem takeToByte_ascii {l : List Char} (hl : ∀ c ∈ l, c.utf8Size = 1) :
    ∀ b, b ≤ l.length → takeToByte l b = some (l.take b) := by
  induction l with
  | nil =>
    intro b hb
    obtain rfl : b = 0 := Nat.le_zero.mp (by simpa using hb)
    rfl
  | cons c r ih =>
    intro b hb
    cases b with
    | zero => rfl
    | succ n =>
      have hc : c.utf8Size = 1 := hl c (List.mem_cons_self c r)
      have hrec := ih (fun x hx => hl x (List.mem_cons_of_mem _ hx)) n
        (by simpa using hb)
      simp only [takeToByte, hc]
      rw [if_pos (by omega)]
      simp only [Nat.add_sub_cancel, hrec, Option.map_some']
      rfl

theorem byteSlice_ascii {l : List Char} (hl : ∀ c ∈ l, c.utf8Size = 1)
    {a b : Nat} (hab : a ≤ b) (hb : b ≤ l.length) :
    (byteSlice l a b).isSome = true := by
  unfold byteSlice
  rw [if_pos hab]
  rw [dropToByte_ascii hl a (le_trans hab hb)]
  have hdrop : ∀ c ∈ l.drop a, c.utf8Size = 1 := fun c hc =>
    hl c (List.drop_subset a l hc)
  rw [Option.some_bind, takeToByte_ascii hdrop (b - a)
    (by simp [List.length_drop]; omega)]
  rfl

theorem hstep_facts (st : HState) (c : Char) :
    (hstep st c).1 = none ∨
    ((hstep st c).2 ≠ HState.UpperNext ∧
      ((hstep st c).1 = some 0 ∨
        ((hstep st c).1 = some 1 ∧ st = HState.UpperNext))) := by
  cases st <;> simp [hstep] <;> split_ifs <;> simp

theorem drop_cons_succ {l : List Char} {k : Nat} {c : Char} {cs : List Char}
    (h : l.drop k = c :: cs) : l.drop (k + 1) = cs := by
  have : (l.drop k).drop 1 = l.drop (k + 1) := List.drop_drop 1 k l
  rw [← this, h]
  rfl

theorem drop_cons_lt {l : List Char} {k : Nat} {c : Char} {cs : List Char}
    (h : l.drop k = c :: cs) : k < l.length := by
  by_contra hk
  rw [List.drop_eq_nil_of_le (by omega)] at h
  exact List.noConfusion h

theorem charIndicesFrom_length (l : List Char) :
    ∀ p, (charIndicesFrom p l).length = l.length := by
  induction l with
  | nil => intro p; rfl
  | cons x xs ih => intro p; simp [charIndicesFrom, ih]

theorem hnextLoop_ascii {input : List Char}
    (hascii : ∀ c ∈ input, c.utf8Size = 1) :
    ∀ (suffix : List Char) (k offset : Nat) (st : HState),
      input.drop k = suffix → offset ≤ k → k ≤ input.length →
      (st = HState.UpperNext → offset + 1 ≤ k) →
      ∃ part h',
        hnextLoop input offset st (charIndicesFrom k suffix) =
          HStep.emit part h' ∧
        h'.input = input ∧
        ((h'.done = true ∧ h'.chars = []) ∨
          (h'.done = false ∧
            ∃ k', h'.chars = charIndicesFrom k' (input.drop k') ∧
              h'.offset ≤ k' ∧ k' ≤ input.length ∧
              (h'.state = HState.UpperNext → h'.offset + 1 ≤ k') ∧
              h'.chars.length < suffix.length)) := by
  intro suffix
  induction suffix with
  | nil =>
    intro k offset st hdrop hoff hk hun
    refine ⟨input.drop offset, ⟨input, offset, st, true, []⟩, ?_, rfl,
      Or.inl ⟨rfl, rfl⟩⟩
    show (match dropToByte input offset with
      | none => HStep.crashed
      | some part => HStep.emit part ⟨input, offset, st, true, []⟩) =
      HStep.emit (input.drop offset) ⟨input, offset, st, true, []⟩
    rw [dropToByte_ascii hascii offset (le_trans hoff hk)]
  | cons c cs ih =>
    intro k offset st hdrop hoff hk hun
    have hcmem : c ∈ input := by
      have : c ∈ input.drop k := by rw [hdrop]; exact List.mem_cons_self c cs
      exact List.drop_subset k input this
    have hcsize : c.utf8Size = 1 := hascii c hcmem
    have hklt : k < input.length := drop_cons_lt hdrop
    have hdrop1 : input.drop (k + 1) = cs := drop_cons_succ hdrop
    have hunfold : charIndicesFrom k (c :: cs) =
        (k, c) :: charIndicesFrom (k + 1) cs := by
      simp [charIndicesFrom, hcsize]
    rw [hunfold]
    rcases hstep_facts st c with hnone | ⟨hst', hd⟩
    · -- no boundary: continue the loop
      have hpair : hstep st c = (none, (hstep st c).2) := by
        rw [← hnone]
      obtain ⟨part, h', hloop, hinp, hinv⟩ := ih (k + 1) offset
        (hstep st c).2 hdrop1 (by omega) (by omega) (fun _ => by omega)
      refine ⟨part, h', ?_, hinp, ?_⟩
      · show (match hstep st c with
          | (some delta, st') =>
            match byteSlice input offset (k - delta) with
            | none => HStep.crashed
            | some part => HStep.emit part ⟨input, k - delta, st', false,
                charIndicesFrom (k + 1) cs⟩
          | (none, st') =>
            hnextLoop input offset st' (charIndicesFrom (k + 1) cs)) =
          HStep.emit part h'
        rw [hpair]
        exact hloop
      · rcases hinv with hdone | ⟨hnd, k', hch, ho, hkl, hu, hlen⟩
        · exact Or.inl hdone
        · exact Or.inr ⟨hnd, k', hch, ho, hkl, hu, by
            simp only [List.length_cons]
            omega⟩
    · -- boundary: emit a part
      obtain ⟨d, hd0⟩ : ∃ d, (hstep st c).1 = some d ∧
          (d = 0 ∨ (d = 1 ∧ st = HState.UpperNext)) := by
        rcases hd with h0 | ⟨h1, hst⟩
        · exact ⟨0, h0, Or.inl rfl⟩
        · exact ⟨1, h1, Or.inr ⟨rfl, hst⟩⟩
      obtain ⟨hsome, hdval⟩ := hd0
      have hpair : hstep st c = (some d, (hstep st c).2) := by
        rw [← hsome]
      have hoffd : offset ≤ k - d := by
        rcases hdval with rfl | ⟨rfl, hst⟩
        · omega
        · have := hun hst
          omega
      have hkd : k - d ≤ input.length := by omega
      obtain ⟨part, hslice⟩ := Option.isSome_iff_exists.mp
        (byteSlice_ascii hascii hoffd hkd)
      refine ⟨part, ⟨input, k - d, (hstep st c).2, false,
        charIndicesFrom (k + 1) cs⟩, ?_, rfl, ?_⟩
      · show (match hstep st c with
          | (some delta, st') =>
            match byteSlice input offset (k - delta) with
            | none => HStep.crashed
            | some part => HStep.emit part ⟨input, k - delta, st', false,
                charIndicesFrom (k + 1) cs⟩
          | (none, st') =>
            hnextLoop input offset st' (charIndicesFrom (k + 1) cs)) =
          HStep.emit part ⟨input, k - d, (hstep st c).2, false,
            charIndicesFrom (k + 1) cs⟩
        rw [hpair]
        dsimp only
        rw [hslice]
      · refine Or.inr ⟨rfl, k + 1, by dsimp only; rw [hdrop1],
          by show k - d ≤ k + 1; omega, by omega,
          fun hcontra => absurd hcontra hst', ?_⟩
        show (charIndicesFrom (k + 1) cs).length < (c :: cs).length
        rw [charIndicesFrom_length]
        simp

theorem hcollect_ascii {input : List Char}
    (hascii : ∀ c ∈ input, c.utf8Size = 1) :
    ∀ fuel (h : HashtagParts), h.input = input →
      ((h.done = true ∧ 1 ≤ fuel) ∨
        (h.done = false ∧ h.chars.length + 2 ≤ fuel ∧
          ∃ k, h.chars = charIndicesFrom k (input.drop k) ∧
            h.offset ≤ k ∧ k ≤ input.length ∧
            (h.state = HState.UpperNext → h.offset + 1 ≤ k))) →
      (hcollect fuel h).isSome = true := by
  intro fuel
  induction fuel with
  | zero =>
    intro h hinp hinv
    rcases hinv with ⟨_, hf⟩ | ⟨_, hf, _⟩ <;> omega
  | succ g ihg =>
    intro h hinp hinv
    rcases hinv with ⟨hdone, _⟩ | ⟨hnd, hfuel, k, hch, hoff, hkl, hu⟩
    · have hnone : hnext h = none := by
        unfold hnext
        rw [hdone]
        rfl
      simp [hcollect, hnone]
    · have hsome : hnext h =
          some (hnextLoop h.input h.offset h.state h.chars) := by
        unfold hnext
        rw [hnd]
        rfl
      obtain ⟨part, h', hloop, hinp', hinv'⟩ :=
        hnextLoop_ascii hascii (input.drop k) k h.offset h.state rfl hoff
          hkl hu
      rw [hinp, hch] at hsome
      have hlen : h.chars.length = (input.drop k).length := by
        rw [hch, charIndicesFrom_length]
      have : hcollect (g + 1) h =
          (hcollect g h').map (part :: ·) := by
        show (match hnext h with
          | none => some []
          | some HStep.crashed => none
          | some (HStep.emit part h') => (hcollect g h').map (part :: ·)) =
          (hcollect g h').map (part :: ·)
        rw [hsome, hloop]
      rw [this, Option.isSome_map']
      apply ihg h' hinp'
      rcases hinv' with ⟨hd', _⟩ | ⟨hd', k', hch', ho', hk', hu', hprog⟩
      · exact Or.inl ⟨hd', by omega⟩
      · exact Or.inr ⟨hd', by omega, k', hch', ho', hk', hu'⟩

/-- C6 amended: for every string accepted by the hashtag try_from whose
characters are all single-byte (ASCII), iterating the segmenter to
exhaustion never panics: every sub-word boundary it computes falls on a
(trivial, single-byte) UTF-8 character boundary, so collecting the parts
succeeds.  Without the single-byte restriction the iterator can panic, as
the claim-6 counterexample shows. -/
theorem claim6_amended (l : List Char) (h : HashtagParts)
    (hascii : ∀ c ∈ l, c.toNat ≤ 0x7f)
    (htf : hashtagTryFrom l = some h) :
    (splitHashtag l).isSome = true := by
  have hsz : ∀ c ∈ l, c.utf8Size = 1 := fun c hc =>
    utf8Size_eq_one_of_ascii (hascii c hc)
  unfold splitHashtag
  rw [htf]
  cases l with
  | nil => simp [hashtagTryFrom] at htf
  | cons c t =>
    cases t with
    | nil => simp [hashtagTryFrom] at htf
    | cons c2 rest =>
      unfold hashtagTryFrom at htf
      dsimp only at htf
      split at htf
      · obtain rfl := (Option.some_inj.mp htf).symm
        have hc1 : c.utf8Size = 1 := hsz c (by simp)
        have hc2 : c2.utf8Size = 1 := hsz c2 (by simp)
        apply hcollect_ascii hsz
        · rfl
        · refine Or.inr ⟨rfl, ?_, 2, ?_, by show (1 : Nat) ≤ 2; omega,
            by simp, ?_⟩
          · show (charIndicesFrom (c.utf8Size + c2.utf8Size) rest).length +
                2 ≤ (c :: c2 :: rest).length + 2
            rw [charIndicesFrom_length]
            simp
          · show charIndicesFrom (c.utf8Size + c2.utf8Size) rest =
              charIndicesFrom 2 ((c :: c2 :: rest).drop 2)
            rw [hc1, hc2]
            rfl
          · intro hcontra
            exact absurd hcontra (by simp)
      · exact absurd htf (by simp)

/-- Witness for the C6 amended theorem at the accepted ASCII hashtag. -/
theorem claim6_witness :
    (∀ c ∈ lc "#ab", c.toNat ≤ 0x7f) ∧
    hashtagTryFrom (lc "#ab") =
      some ⟨lc "#ab", 1, HState.UpperStart, false, [(2, 'b')]⟩ ∧
    (splitHashtag (lc "#ab")).isSome = true :=
  ⟨by decide, by decide,
   claim6_amended (lc "#ab")
     ⟨lc "#ab", 1, HState.UpperStart, false, [(2, 'b')]⟩
     (by decide) (by decide)⟩
